import Mathlib

/-!
Verification of the Anima-Sigma signature perception engine and the swarm
topology / stability controller, shallowly embedded from the Rust sources.
All `f64`/`f32` arithmetic is modelled by real arithmetic; Rust panics are
modelled by `Option` failure where a claim depends on them.
-/

namespace AnimaSigma

/-- Truncated (depth-3) path signature over the 2-dimensional augmented
space (time, value); fields mirror `Signature` in
`ArchT3/src/perception/universal_vector.rs`. -/
@[ext]
structure Signature where
  level1 : ℝ × ℝ
  level2 : Fin 2 → Fin 2 → ℝ
  level3 : Fin 2 → Fin 2 → Fin 2 → ℝ

namespace Signature

/-- `Signature::zero`. -/
noncomputable def zero : Signature :=
  { level1 := (0, 0), level2 := fun _ _ => 0, level3 := fun _ _ _ => 0 }

/-- `Signature::from_segment`: the exact signature of a single linear
increment `(dt, dx)`, with second and third levels `v ⊗ v / 2` and
`v ⊗ v ⊗ v / 6` for `v = [dt, dx]`. -/
noncomputable def from_segment (dt dx : ℝ) : Signature :=
  { level1 := (dt, dx)
    level2 := fun i j => ![dt, dx] i * ![dt, dx] j * 0.5
    level3 := fun i j k => ![dt, dx] i * ![dt, dx] j * ![dt, dx] k / 6 }

/-- `Signature::combine`: Chen's identity for concatenated paths. -/
noncomputable def combine (a b : Signature) : Signature :=
  { level1 := (a.level1.1 + b.level1.1, a.level1.2 + b.level1.2)
    level2 := fun i j => a.level2 i j + b.level2 i j
      + ![a.level1.1, a.level1.2] i * ![b.level1.1, b.level1.2] j
    level3 := fun i j k => a.level3 i j k + b.level3 i j k
      + ![a.level1.1, a.level1.2] i * b.level2 j k
      + a.level2 i j * ![b.level1.1, b.level1.2] k }

/-- `Signature::dot`: sum of componentwise products over the flattened
levels 1–3. -/
noncomputable def dot (a b : Signature) : ℝ :=
  a.level1.1 * b.level1.1 + a.level1.2 * b.level1.2
    + (∑ i : Fin 2, ∑ j : Fin 2, a.level2 i j * b.level2 i j)
    + (∑ i : Fin 2, ∑ j : Fin 2, ∑ k : Fin 2, a.level3 i j k * b.level3 i j k)

/-- `Signature::magnitude`: `sqrt (dot self self)`. -/
noncomputable def magnitude (a : Signature) : ℝ :=
  Real.sqrt (dot a a)

/-- `Signature::distance`: Euclidean distance over the flattened levels. -/
noncomputable def distance (a b : Signature) : ℝ :=
  Real.sqrt ((a.level1.1 - b.level1.1) ^ 2 + (a.level1.2 - b.level1.2) ^ 2
    + (∑ i : Fin 2, ∑ j : Fin 2, (a.level2 i j - b.level2 i j) ^ 2)
    + (∑ i : Fin 2, ∑ j : Fin 2, ∑ k : Fin 2, (a.level3 i j k - b.level3 i j k) ^ 2))

end Signature

/-- `LateralLink` from `ArchT3/src/neural_swarm/prototypical_neural_unit.rs`. -/
structure LateralLink where
  target_id : ℕ
  weight : ℝ
  plasticity_rate : ℝ

/-- `PNUState`: activation and its derivative. -/
structure PNUState where
  activation : ℝ
  derivative : ℝ

/-- `PrototypicalNeuralUnit`, restricted to the fields read or written by
the operations modelled here (`semantic_distance`,
`enforce_gershgorin_stability`, `wire_swarm_topology`,
`calculate_lateral_input`); the remaining numeric fields of the Rust
struct are never touched by these functions. -/
structure PrototypicalNeuralUnit where
  id : ℕ
  weight_vector : List ℝ
  state : PNUState
  auto_inhibition_a : ℝ
  lateral_links : List LateralLink

/-- The aggregate lateral influx `Σ |link.weight|` of a unit. -/
noncomputable def lateralInfluxSum (u : PrototypicalNeuralUnit) : ℝ :=
  (u.lateral_links.map fun l => |l.weight|).sum

/-- `enforce_gershgorin_stability`: if `Σ|w| >= auto_inhibition_a`,
rescale every link weight by `(auto_inhibition_a - 0.01) / Σ|w|`. -/
noncomputable def enforce_gershgorin_stability
    (u : PrototypicalNeuralUnit) : PrototypicalNeuralUnit :=
  if u.auto_inhibition_a ≤ lateralInfluxSum u then
    { u with lateral_links := u.lateral_links.map fun l =>
        { l with weight :=
            l.weight * ((u.auto_inhibition_a - 0.01) / lateralInfluxSum u) } }
  else u

/-- Index type enumerating the 14 scalar components of a `Signature`. -/
abbrev SigIdx : Type := (Fin 2) ⊕ ((Fin 2 × Fin 2) ⊕ (Fin 2 × Fin 2 × Fin 2))

/-- The flattened component vector of a signature, used to relate `dot`
to a single finite sum. -/
noncomputable def comps (s : Signature) : SigIdx → ℝ
  | Sum.inl i => ![s.level1.1, s.level1.2] i
  | Sum.inr (Sum.inl (i, j)) => s.level2 i j
  | Sum.inr (Sum.inr (i, j, k)) => s.level3 i j k

theorem dot_eq_sum (a b : Signature) :
    Signature.dot a b = ∑ x : SigIdx, comps a x * comps b x := by
  simp [Signature.dot, comps, Fintype.sum_sum_type, Fintype.sum_prod_type,
    Fin.sum_univ_two]
  ring

theorem dot_self_nonneg (a : Signature) : 0 ≤ Signature.dot a a := by
  rw [dot_eq_sum]
  exact Finset.sum_nonneg fun x _ => mul_self_nonneg _

theorem dot_sq_le_dot_mul_dot (a b : Signature) :
    Signature.dot a b ^ 2 ≤ Signature.dot a a * Signature.dot b b := by
  rw [dot_eq_sum, dot_eq_sum, dot_eq_sum]
  have h := Finset.sum_mul_sq_le_sq_mul_sq Finset.univ (comps a) (comps b)
  simpa [sq] using h

/-- `Gradient`: the retained `(dt, dx)` increment log. -/
structure Gradient where
  data : List (ℝ × ℝ)

/-- `Modality` enum. -/
inductive Modality
  | Sensor
  | Vision
  | Audio
  | Memory

/-- `Metadata` bundle. -/
structure Metadata where
  timestamp : ℝ
  modality : Modality
  reliability : ℝ

/-- `Metadata::zero`. -/
noncomputable def Metadata.zero : Metadata :=
  { timestamp := 0, modality := Modality.Vision, reliability := 1 }

/-- `UniversalVector`: signature + gradient + metadata. -/
structure UniversalVector where
  signature : Signature
  gradient : Gradient
  metadata : Metadata

/-- `UniversalVector::zero`. -/
noncomputable def UniversalVector.zero : UniversalVector :=
  { signature := Signature.zero, gradient := ⟨[]⟩, metadata := Metadata.zero }

/-- `UniversalVector::resonance_directional`: cosine similarity of the two
signatures, `0.0` when either magnitude is zero. -/
noncomputable def UniversalVector.resonance_directional
    (a b : UniversalVector) : ℝ :=
  if a.signature.magnitude = 0 ∨ b.signature.magnitude = 0 then 0
  else Signature.dot a.signature b.signature
    / (a.signature.magnitude * b.signature.magnitude)

/-- `UniversalVector::resonance_structural`: Gaussian (RBF) kernel of the
signature distance. -/
noncomputable def UniversalVector.resonance_structural
    (a b : UniversalVector) (sigma : ℝ) : ℝ :=
  Real.exp (-(Signature.distance a.signature b.signature
      * Signature.distance a.signature b.signature) / (2 * sigma * sigma))

/-- Default unit used only to state `getD`-based sums. -/
noncomputable def dfltPNU : PrototypicalNeuralUnit :=
  ⟨0, [], ⟨0, 0⟩, 0, []⟩

/-- The link-accumulation loop of `calculate_lateral_input`; `none` models
the panic of the unchecked index `swarm[link.target_id]`. -/
noncomputable def lateralLoop (swarm : List PrototypicalNeuralUnit) :
    List LateralLink → ℝ → ℝ → Option (ℝ × ℝ)
  | [], exc, inh => some (exc, inh)
  | l :: ls, exc, inh =>
      (swarm[l.target_id]?).bind fun nb =>
        let signal := max nb.state.activation 0
        if 0 < l.weight then
          lateralLoop swarm ls (exc + l.weight * signal) inh
        else
          lateralLoop swarm ls exc (inh + |l.weight| * signal)

/-- `calculate_lateral_input`: folds each lateral link into the rectified
excitatory/inhibitory sums of the shunting equation. -/
noncomputable def calculate_lateral_input (pnu : PrototypicalNeuralUnit)
    (swarm : List PrototypicalNeuralUnit) : Option (ℝ × ℝ) :=
  lateralLoop swarm pnu.lateral_links 0 0

/-- Closed-form excitatory sum `Σ_{w>0} w * max(activation, 0)` used to
state the in-range behaviour of `calculate_lateral_input`. -/
noncomputable def excitatorySum (swarm : List PrototypicalNeuralUnit)
    (ls : List LateralLink) : ℝ :=
  (ls.map fun l => if 0 < l.weight
    then l.weight * max (swarm.getD l.target_id dfltPNU).state.activation 0
    else 0).sum

/-- Closed-form inhibitory sum `Σ_{w<=0} |w| * max(activation, 0)`. -/
noncomputable def inhibitorySum (swarm : List PrototypicalNeuralUnit)
    (ls : List LateralLink) : ℝ :=
  (ls.map fun l => if 0 < l.weight then 0
    else |l.weight| * max (swarm.getD l.target_id dfltPNU).state.activation 0).sum

/-- `semantic_distance`: Euclidean distance between two units' prototype
weight vectors. -/
noncomputable def semantic_distance (a b : PrototypicalNeuralUnit) : ℝ :=
  Real.sqrt (((a.weight_vector.zip b.weight_vector).map
    fun p => (p.1 - p.2) ^ 2).sum)

/-- `TopologyConfig`. -/
structure TopologyConfig where
  sigma_excitation : ℝ
  sigma_inhibition : ℝ
  amp_excitation : ℝ
  amp_inhibition : ℝ
  connection_cutoff : ℝ
  max_neighbors : ℕ

/-- The Mexican-hat (difference-of-Gaussians) weight at distance `d`. -/
noncomputable def mexicanHatWeight (cfg : TopologyConfig) (d : ℝ) : ℝ :=
  cfg.amp_excitation * Real.exp (-(d ^ 2) / (2 * cfg.sigma_excitation ^ 2))
    - cfg.amp_inhibition * Real.exp (-(d ^ 2) / (2 * cfg.sigma_inhibition ^ 2))

/-- The candidate links of unit `i` in `wire_swarm_topology`: every
ordered pair `(i, j)`, `j ≠ i`, whose Mexican-hat weight passes the
cutoff; `target_id` is stored as `swarm[j].id`. -/
noncomputable def candidateLinks (swarm : List PrototypicalNeuralUnit)
    (cfg : TopologyConfig) (i : ℕ) : List LateralLink :=
  (List.range swarm.length).filterMap fun j =>
    if j = i then none
    else
      if cfg.connection_cutoff < |mexicanHatWeight cfg
          (semantic_distance (swarm.getD i dfltPNU) (swarm.getD j dfltPNU))| then
        some ⟨(swarm.getD j dfltPNU).id,
          mexicanHatWeight cfg
            (semantic_distance (swarm.getD i dfltPNU) (swarm.getD j dfltPNU)),
          0.01⟩
      else none

/-- The comparator of the source's `sort_by`: descending `|weight|`.
`orderedInsert`/`insertionSort` with this relation is stable, matching
Rust's stable `sort_by`. -/
def linkGE (a b : LateralLink) : Prop :=
  |b.weight| ≤ |a.weight|

noncomputable instance : DecidableRel linkGE :=
  fun a b => inferInstanceAs (Decidable (|b.weight| ≤ |a.weight|))

instance : IsTotal LateralLink linkGE :=
  ⟨fun a b => le_total _ _⟩

instance : IsTrans LateralLink linkGE :=
  ⟨fun _ _ _ h1 h2 => le_trans h2 h1⟩

/-- The selection stage of `wire_swarm_topology` for unit `i`: stable sort
by descending `|weight|`, then truncate to `max_neighbors`. -/
noncomputable def selectLinks (swarm : List PrototypicalNeuralUnit)
    (cfg : TopologyConfig) (i : ℕ) : List LateralLink :=
  (List.insertionSort linkGE (candidateLinks swarm cfg i)).take
    cfg.max_neighbors

/-- `wire_swarm_topology`: each unit's links are wholly replaced by its
truncated selection and the unit is immediately Gershgorin-stabilised.
The source's in-place loop only mutates `lateral_links`, which no other
unit's candidate computation reads, so it equals this per-index map. -/
noncomputable def wire_swarm_topology (swarm : List PrototypicalNeuralUnit)
    (cfg : TopologyConfig) : List PrototypicalNeuralUnit :=
  (List.range swarm.length).map fun i =>
    enforce_gershgorin_stability
      { swarm.getD i dfltPNU with lateral_links := selectLinks swarm cfg i }

/-- `AdaptiveNormalizer` state from `src/perception/adaptive_normalizer.rs`
(`is_init` models the lazily-set `initialized` flag). -/
structure AdaptiveNormalizer where
  count : ℕ
  mean : List ℝ
  m2 : List ℝ
  is_init : Bool

/-- The per-dimension Welford pass of `AdaptiveNormalizer::update`
(`c` is the already-incremented count, cast to `f64` in the source). -/
noncomputable def welfordLoop (c : ℝ) :
    List ℝ → List ℝ → List ℝ → (List ℝ × List ℝ)
  | x :: xs, m :: ms, v :: vs =>
      let delta := x - m
      let m1 := m + delta / c
      let delta2 := x - m1
      let rest := welfordLoop c xs ms vs
      (m1 :: rest.1, (v + delta * delta2) :: rest.2)
  | _, ms, vs => (ms, vs)

/-- `AdaptiveNormalizer::update`: lazy initialisation on first call, then
asserts matching dimensionality (`none` models the panic) and applies the
Welford single-pass update per dimension. -/
noncomputable def AdaptiveNormalizer.update
    (s : AdaptiveNormalizer) (values : List ℝ) : Option AdaptiveNormalizer :=
  let s0 := if s.is_init then s else
    { count := s.count, mean := List.replicate values.length 0,
      m2 := List.replicate values.length 0, is_init := true }
  if values.length = s0.mean.length then
    let res := welfordLoop ((s0.count + 1 : ℕ) : ℝ) values s0.mean s0.m2
    some { s0 with count := s0.count + 1, mean := res.1, m2 := res.2 }
  else none

/-- The per-dimension z-scoring pass of `AdaptiveNormalizer::normalize`:
`none` models the index panic when `mean`/`m2` are shorter than the
sample. -/
noncomputable def normLoop (c : ℕ) :
    List ℝ → List ℝ → List ℝ → Option (List ℝ)
  | [], _, _ => some []
  | x :: xs, m :: ms, v :: vs =>
      let variance := v / ((c - 1 : ℕ) : ℝ)
      let std := Real.sqrt variance
      let z := if 1e-9 < std then (x - m) / std else 0
      (normLoop c xs ms vs).map (fun r => z :: r)
  | _ :: _, _, _ => none

/-- `AdaptiveNormalizer::normalize`: identity below two samples, else the
per-dimension z-score with a `0.0` fallback for degenerate deviations.
`normalize` takes the state immutably (`&self` in the source); in this
embedding that is reflected by its type, which returns no state. -/
noncomputable def AdaptiveNormalizer.normalize
    (s : AdaptiveNormalizer) (values : List ℝ) : Option (List ℝ) :=
  if s.count < 2 then some values
  else normLoop s.count values s.mean s.m2

/-- A segment emitted by the segmenter: the slice of raw samples and the
parallel slice of timestamps handed to `create_vector_from_slice`. -/
abbrev Seg : Type := List (List ℝ) × List ℝ

/-- The reference-dimension value `raw[i][0]` used by
`segment_and_process` in `src/perception/universal_transducer.rs`:
`none` models the Rust index panic on an empty sample row (the outer
index is always in range at the call sites, which iterate
`1 .. raw.len()`). -/
noncomputable def refVal (raw : List (List ℝ)) (i : ℕ) : Option ℝ :=
  (raw.getD i [])[0]?

/-- Rust `f64::signum` on the values reached here (the `|dx| < 1e-6`
filter excludes `0`). -/
noncomputable def rustSignum (x : ℝ) : ℝ :=
  if 0 ≤ x then 1 else -1

/-- Crystallising the segment `[s, i)`: slicing `times[s..i]` is modelled
as failing (`none`) when the Rust slice bounds would panic, and the
`assert_eq!(t.len(), raw.len())` of `create_vector_from_slice` as failing
when the slice lengths disagree; segments shorter than 3 are dropped. -/
noncomputable def emitSegment (raw : List (List ℝ)) (times : List ℝ)
    (s i : ℕ) (acc : List Seg) : Option (List Seg) :=
  if s ≤ i ∧ i ≤ times.length then
    if 3 ≤ ((raw.drop s).take (i - s)).length then
      if ((times.drop s).take (i - s)).length
          = ((raw.drop s).take (i - s)).length then
        some (acc ++ [((raw.drop s).take (i - s), (times.drop s).take (i - s))])
      else none
    else some acc
  else none

/-- The zero-crossing scan of `segment_and_process` over indices
`1 .. len-1`, carrying `(start_idx, current_sign, emitted)`. -/
noncomputable def segLoop (raw : List (List ℝ)) (times : List ℝ) :
    List ℕ → ℕ → ℝ → List Seg → Option (ℕ × ℝ × List Seg)
  | [], s, sign, acc => some (s, sign, acc)
  | i :: rest, s, sign, acc =>
      (refVal raw i).bind fun xi =>
        (refVal raw (i - 1)).bind fun xim =>
          if |xi - xim| < 1e-6 then
            segLoop raw times rest s sign acc
          else
            if rustSignum (xi - xim)
                ≠ (if sign = 0 then rustSignum (xi - xim) else sign) then
              (emitSegment raw times s i acc).bind fun acc1 =>
                segLoop raw times rest (i - 1) (rustSignum (xi - xim)) acc1
            else
              segLoop raw times rest s
                (if sign = 0 then rustSignum (xi - xim) else sign) acc

/-- Flushing the trailing segment `[s ..]` after the scan. -/
noncomputable def flushTail (raw : List (List ℝ)) (times : List ℝ)
    (s : ℕ) (acc : List Seg) : Option (List Seg) :=
  if s < raw.length - 1 then
    if s ≤ times.length then
      if 3 ≤ (raw.drop s).length then
        if (times.drop s).length = (raw.drop s).length then
          some (acc ++ [(raw.drop s, times.drop s)])
        else none
      else some acc
    else none
  else some acc

/-- `UniversalTransducer::segment_and_process` (multidimensional variant):
returns the emitted segment slices, which are in one-to-one
correspondence with the `UniversalVector`s the source produces (each
emitted slice pair is mapped through `create_vector_from_slice`). -/
noncomputable def segment_and_process (raw : List (List ℝ))
    (times : List ℝ) : Option (List Seg) :=
  if raw.length < 2 then some [] else
    (segLoop raw times (List.range' 1 (raw.length - 1)) 0 0 []).bind
      fun res => flushTail raw times res.1 res.2.2

end AnimaSigma

namespace AnimaSigma

open Signature

/-- C1. Straight-line invariance under resampling: splitting a single
linear increment `(dt, dx)` at any ratio `lam ∈ (0,1)` and combining the
two sub-increment signatures with Chen's identity reproduces the one-step
signature exactly (in real arithmetic). -/
theorem combine_from_segment_split (dt dx lam : ℝ)
    (h0 : 0 < lam) (h1 : lam < 1) :
    combine (from_segment (lam * dt) (lam * dx))
      (from_segment ((1 - lam) * dt) ((1 - lam) * dx)) = from_segment dt dx := by
  refine Signature.ext ?_ ?_ ?_
  · simp only [combine, from_segment, Prod.mk.injEq]
    constructor <;> ring
  · funext i j
    fin_cases i <;> fin_cases j <;>
      simp [combine, from_segment] <;> ring
  · funext i j k
    fin_cases i <;> fin_cases j <;> fin_cases k <;>
      simp [combine, from_segment] <;> ring

/-- Witness for C1 at `dt = 1`, `dx = 2`, `lam = 1/2`. -/
theorem combine_from_segment_split_witness :
    (0 : ℝ) < 1 / 2 ∧ (1 : ℝ) / 2 < 1 ∧
      combine (from_segment ((1 / 2 : ℝ) * 1) ((1 / 2 : ℝ) * 2))
        (from_segment ((1 - 1 / 2 : ℝ) * 1) ((1 - 1 / 2 : ℝ) * 2)) =
        from_segment 1 2 :=
  ⟨by norm_num, by norm_num,
    combine_from_segment_split 1 2 (1 / 2) (by norm_num) (by norm_num)⟩

/-- C2. Chen associativity: `combine` is associative on signatures (all
signatures in this embedding share the fixed dimension 2). -/
theorem combine_assoc (a b c : Signature) :
    combine (combine a b) c = combine a (combine b c) := by
  refine Signature.ext ?_ ?_ ?_
  · simp only [combine, Prod.mk.injEq]
    constructor <;> ring
  · funext i j
    fin_cases i <;> fin_cases j <;>
      simp [combine] <;> ring
  · funext i j k
    fin_cases i <;> fin_cases j <;> fin_cases k <;>
      simp [combine] <;> ring

theorem magnitude_nonneg (a : Signature) : 0 ≤ a.magnitude :=
  Real.sqrt_nonneg _

theorem sq_magnitude (a : Signature) :
    a.magnitude ^ 2 = Signature.dot a a :=
  Real.sq_sqrt (dot_self_nonneg a)

/-- C9. Resonance bounds: `resonance_directional` lies in `[-1, 1]` and is
exactly `0` when either operand's signature magnitude is zero;
`resonance_structural` lies in `(0, 1]` for every `sigma`. -/
theorem resonance_bounds (a b : UniversalVector) :
    (-1 ≤ a.resonance_directional b ∧ a.resonance_directional b ≤ 1)
    ∧ (a.signature.magnitude = 0 ∨ b.signature.magnitude = 0 →
        a.resonance_directional b = 0)
    ∧ (∀ sigma : ℝ, 0 < a.resonance_structural b sigma
        ∧ a.resonance_structural b sigma ≤ 1) := by
  refine ⟨?_, ?_, ?_⟩
  · unfold UniversalVector.resonance_directional
    split
    · norm_num
    · rename_i h
      push_neg at h
      have hma : 0 < a.signature.magnitude :=
        lt_of_le_of_ne (magnitude_nonneg _) (Ne.symm h.1)
      have hmb : 0 < b.signature.magnitude :=
        lt_of_le_of_ne (magnitude_nonneg _) (Ne.symm h.2)
      have hM : 0 < a.signature.magnitude * b.signature.magnitude :=
        mul_pos hma hmb
      have h2 : Signature.dot a.signature b.signature ^ 2
          ≤ (a.signature.magnitude * b.signature.magnitude) ^ 2 := by
        rw [mul_pow, sq_magnitude, sq_magnitude]
        exact dot_sq_le_dot_mul_dot _ _
      have h3 : |Signature.dot a.signature b.signature|
          ≤ a.signature.magnitude * b.signature.magnitude := by
        nlinarith [abs_nonneg (Signature.dot a.signature b.signature),
          sq_abs (Signature.dot a.signature b.signature)]
      rw [abs_le] at h3
      constructor
      · rw [le_div_iff₀ hM]
        linarith [h3.1]
      · rw [div_le_one hM]
        exact h3.2
  · intro h
    unfold UniversalVector.resonance_directional
    rw [if_pos h]
  · intro sigma
    unfold UniversalVector.resonance_structural
    refine ⟨Real.exp_pos _, ?_⟩
    rw [Real.exp_le_one_iff]
    have hnum : 0 ≤ Signature.distance a.signature b.signature
        * Signature.distance a.signature b.signature :=
      mul_self_nonneg _
    have hden : (0 : ℝ) ≤ 2 * sigma * sigma := by nlinarith [mul_self_nonneg sigma]
    have := div_nonneg hnum hden
    rw [neg_div]
    linarith

theorem sum_map_abs_mul (ls : List LateralLink) (c : ℝ) :
    ((ls.map fun l => |l.weight * c|).sum)
      = ((ls.map fun l => |l.weight|).sum) * |c| := by
  induction ls with
  | nil => simp
  | cons a t ih =>
    rw [List.map_cons, List.map_cons, List.sum_cons, List.sum_cons, ih, abs_mul]
    ring

theorem influx_after_scale (u : PrototypicalNeuralUnit) (c : ℝ) :
    lateralInfluxSum { u with lateral_links := (u.lateral_links.map
        (fun l => { l with weight := l.weight * c })) }
      = lateralInfluxSum u * |c| := by
  unfold lateralInfluxSum
  rw [List.map_map]
  exact sum_map_abs_mul u.lateral_links c

theorem getD_weight_map (ls : List LateralLink) (c : ℝ) (i : ℕ) :
    ((ls.map (fun l : LateralLink => { l with weight := l.weight * c })).getD
        i ⟨0, 0, 0⟩).weight
      = (ls.getD i ⟨0, 0, 0⟩).weight * c := by
  induction ls generalizing i with
  | nil => simp [List.getD]
  | cons a t ih =>
    cases i with
    | zero => simp [List.getD]
    | succ n => simpa [List.getD] using ih n

/-- C3 (amended). Stability enforcement: when `Σ|w| >= auto_inhibition_a`,
every link weight is multiplied by the single factor
`(auto_inhibition_a - 0.01) / Σ|w|` (so pairwise weight ratios are
preserved), and — provided `auto_inhibition_a > 0.005` — the resulting
`Σ|w|` is strictly below `auto_inhibition_a`; a unit with
`Σ|w| < auto_inhibition_a` is left unchanged. -/
theorem enforce_gershgorin_contract (u : PrototypicalNeuralUnit) :
    (u.auto_inhibition_a ≤ lateralInfluxSum u →
      (enforce_gershgorin_stability u).lateral_links
        = u.lateral_links.map fun l =>
            { l with weight :=
                l.weight * ((u.auto_inhibition_a - 0.01) / lateralInfluxSum u) })
    ∧ (u.auto_inhibition_a ≤ lateralInfluxSum u →
        ∀ i j : ℕ,
          ((enforce_gershgorin_stability u).lateral_links.getD i ⟨0, 0, 0⟩).weight
              * (u.lateral_links.getD j ⟨0, 0, 0⟩).weight
            = (u.lateral_links.getD i ⟨0, 0, 0⟩).weight
              * ((enforce_gershgorin_stability u).lateral_links.getD j ⟨0, 0, 0⟩).weight)
    ∧ (u.auto_inhibition_a ≤ lateralInfluxSum u → 0.005 < u.auto_inhibition_a →
        lateralInfluxSum (enforce_gershgorin_stability u) < u.auto_inhibition_a)
    ∧ (lateralInfluxSum u < u.auto_inhibition_a →
        enforce_gershgorin_stability u = u) := by
  refine ⟨?_, ?_, ?_, ?_⟩
  · intro h
    unfold enforce_gershgorin_stability
    rw [if_pos h]
  · intro h i j
    unfold enforce_gershgorin_stability
    rw [if_pos h]
    simp only [getD_weight_map]
    ring
  · intro h hA
    have hpos : 0 < lateralInfluxSum u := lt_of_lt_of_le (by linarith) h
    unfold enforce_gershgorin_stability
    rw [if_pos h]
    rw [influx_after_scale]
    rw [abs_div, abs_of_pos hpos, mul_comm,
      div_mul_cancel₀ _ (ne_of_gt hpos)]
    rcases abs_cases (u.auto_inhibition_a - 0.01) with ⟨he, _⟩ | ⟨he, _⟩ <;>
      rw [he] <;> linarith
  · intro h
    unfold enforce_gershgorin_stability
    rw [if_neg (not_le.mpr h)]

/-- Witness for C3 at the spec's own test unit: `auto_inhibition_a = 1`,
link weights `0.8` and `-0.8` (influx `1.6`). -/
theorem enforce_gershgorin_contract_witness :
    lateralInfluxSum (enforce_gershgorin_stability
      ⟨0, [], ⟨0, 0⟩, 1, [⟨1, 0.8, 0⟩, ⟨2, -0.8, 0⟩]⟩) < 1 := by
  have hinflux : lateralInfluxSum
      (⟨0, [], ⟨0, 0⟩, 1, [⟨1, 0.8, 0⟩, ⟨2, -0.8, 0⟩]⟩ : PrototypicalNeuralUnit)
      = 1.6 := by
    unfold lateralInfluxSum
    norm_num [abs_of_pos, abs_of_neg]
  exact (enforce_gershgorin_contract _).2.2.1
    (by rw [hinflux]; show (1 : ℝ) ≤ 1.6; norm_num)
    (by show (0.005 : ℝ) < 1; norm_num)

/-- Counterexample for C3 as stated: for the unit with
`auto_inhibition_a = 0.004` and a single link of weight `0.004`
(influx `= 0.004 >= auto_inhibition_a`), enforcement rescales by the
negative factor `-1.5`, and the resulting `Σ|w| = 0.006` is *not*
strictly below `auto_inhibition_a`. -/
theorem enforce_gershgorin_counterexample :
    (⟨0, [], ⟨0, 0⟩, 0.004, [⟨1, 0.004, 0⟩]⟩ :
        PrototypicalNeuralUnit).auto_inhibition_a
      ≤ lateralInfluxSum ⟨0, [], ⟨0, 0⟩, 0.004, [⟨1, 0.004, 0⟩]⟩
    ∧ ¬ lateralInfluxSum (enforce_gershgorin_stability
        ⟨0, [], ⟨0, 0⟩, 0.004, [⟨1, 0.004, 0⟩]⟩)
      < (⟨0, [], ⟨0, 0⟩, 0.004, [⟨1, 0.004, 0⟩]⟩ :
        PrototypicalNeuralUnit).auto_inhibition_a := by
  have hinflux : lateralInfluxSum
      (⟨0, [], ⟨0, 0⟩, 0.004, [⟨1, 0.004, 0⟩]⟩ : PrototypicalNeuralUnit)
      = 0.004 := by
    unfold lateralInfluxSum
    norm_num [abs_of_pos]
  have hcond : (⟨0, [], ⟨0, 0⟩, 0.004, [⟨1, 0.004, 0⟩]⟩ :
      PrototypicalNeuralUnit).auto_inhibition_a
      ≤ lateralInfluxSum ⟨0, [], ⟨0, 0⟩, 0.004, [⟨1, 0.004, 0⟩]⟩ := by
    rw [hinflux]
  refine ⟨hcond, ?_⟩
  unfold enforce_gershgorin_stability
  rw [if_pos hcond, influx_after_scale, hinflux]
  have habs : |((⟨0, [], ⟨0, 0⟩, 0.004, [⟨1, 0.004, 0⟩]⟩ :
      PrototypicalNeuralUnit).auto_inhibition_a - 0.01) / (0.004 : ℝ)| = 1.5 := by
    show |((0.004 : ℝ) - 0.01) / 0.004| = 1.5
    rw [abs_of_neg] <;> norm_num
  rw [habs]
  show ¬ (0.004 : ℝ) * 1.5 < (0.004 : ℝ)
  norm_num

theorem normLoop_spec (c : ℕ) (values mean m2 : List ℝ)
    (hm : values.length ≤ mean.length) (hv : values.length ≤ m2.length) :
    ∃ r, normLoop c values mean m2 = some r ∧ r.length = values.length ∧
      ∀ i, i < values.length →
        r.getD i 0 =
          (if 1e-9 < Real.sqrt (m2.getD i 0 / ((c - 1 : ℕ) : ℝ))
           then (values.getD i 0 - mean.getD i 0)
             / Real.sqrt (m2.getD i 0 / ((c - 1 : ℕ) : ℝ))
           else 0) := by
  induction values generalizing mean m2 with
  | nil =>
    exact ⟨[], rfl, rfl, fun i hi => absurd hi (Nat.not_lt_zero i)⟩
  | cons x xs ih =>
    match mean, m2 with
    | m :: ms, v :: vs =>
      simp only [List.length_cons, Nat.succ_le_succ_iff] at hm hv
      obtain ⟨r, hr, hlen, hform⟩ := ih ms vs hm hv
      refine ⟨(if 1e-9 < Real.sqrt (v / ((c - 1 : ℕ) : ℝ))
          then (x - m) / Real.sqrt (v / ((c - 1 : ℕ) : ℝ)) else 0) :: r, ?_, ?_, ?_⟩
      · simp [normLoop, hr]
      · simp [hlen]
      · intro i hi
        cases i with
        | zero => simp [List.getD]
        | succ n =>
          simp only [List.getD_cons_succ]
          exact hform n (Nat.lt_of_succ_lt_succ hi)

/-- C5. Normalizer output contract: with fewer than two samples `normalize`
returns the input unchanged; otherwise (for a sample within the tracked
dimensionality) it returns, per dimension, `(x - mean)/sqrt(m2/(count-1))`
when that standard deviation exceeds `1e-9` and exactly `0` otherwise.
`normalize` takes the state by shared reference and returns no state, so
it cannot mutate the normalizer. -/
theorem normalize_contract (s : AdaptiveNormalizer) (values : List ℝ) :
    (s.count < 2 → s.normalize values = some values)
    ∧ (2 ≤ s.count → values.length ≤ s.mean.length →
        values.length ≤ s.m2.length →
        ∃ r, s.normalize values = some r ∧ r.length = values.length ∧
          ∀ i, i < values.length →
            r.getD i 0 =
              (if 1e-9 < Real.sqrt (s.m2.getD i 0 / ((s.count - 1 : ℕ) : ℝ))
               then (values.getD i 0 - s.mean.getD i 0)
                 / Real.sqrt (s.m2.getD i 0 / ((s.count - 1 : ℕ) : ℝ))
               else 0)) := by
  constructor
  · intro h
    unfold AdaptiveNormalizer.normalize
    rw [if_pos h]
  · intro h hm hv
    unfold AdaptiveNormalizer.normalize
    rw [if_neg (not_lt.mpr h)]
    exact normLoop_spec s.count values s.mean s.m2 hm hv

/-- Witness for C5: a fresh normalizer passes `[7]` through unchanged, and
a normalizer with `count = 3`, `mean = [0]`, `m2 = [2]` (sample standard
deviation `1`) maps `[5]` to `[5]`. -/
theorem normalize_contract_witness :
    AdaptiveNormalizer.normalize ⟨0, [], [], false⟩ [7] = some [7]
    ∧ ∃ r, AdaptiveNormalizer.normalize ⟨3, [0], [2], true⟩ [5] = some r
        ∧ r.getD 0 0 = 5 := by
  constructor
  · exact (normalize_contract ⟨0, [], [], false⟩ [7]).1 (by norm_num)
  · obtain ⟨r, hr, hlen, hform⟩ :=
      (normalize_contract ⟨3, [0], [2], true⟩ [5]).2
        (by norm_num) (by simp) (by simp)
    refine ⟨r, hr, ?_⟩
    rw [hform 0 (by simp)]
    norm_num [List.getD, Real.sqrt_one]

theorem lateralLoop_none (swarm : List PrototypicalNeuralUnit)
    (ls : List LateralLink) (h : ∃ l ∈ ls, swarm.length ≤ l.target_id) :
    ∀ exc inh, lateralLoop swarm ls exc inh = none := by
  induction ls with
  | nil => simp at h
  | cons l t ih =>
    intro exc inh
    rcases h with ⟨b, hb, hlen⟩
    rcases List.mem_cons.mp hb with rfl | hbt
    · have hnone : swarm[b.target_id]? = none := List.getElem?_eq_none hlen
      simp [lateralLoop, hnone]
    · unfold lateralLoop
      cases hget : swarm[l.target_id]? with
      | none => simp
      | some nb =>
        have hn := ih ⟨b, hbt, hlen⟩
        simp only [Option.some_bind]
        split <;> exact hn _ _

theorem lateralLoop_spec (swarm : List PrototypicalNeuralUnit)
    (ls : List LateralLink) (h : ∀ l ∈ ls, l.target_id < swarm.length) :
    ∀ exc inh, lateralLoop swarm ls exc inh
      = some (exc + excitatorySum swarm ls, inh + inhibitorySum swarm ls) := by
  induction ls with
  | nil =>
    intro exc inh
    simp [lateralLoop, excitatorySum, inhibitorySum]
  | cons l t ih =>
    intro exc inh
    have ht : l.target_id < swarm.length := h l (List.mem_cons_self _ _)
    have hget : swarm[l.target_id]?
        = some (swarm.getD l.target_id dfltPNU) := by
      rw [List.getD_eq_getElem?_getD, List.getElem?_eq_getElem ht]
      rfl
    have ih2 := ih fun b hb => h b (List.mem_cons_of_mem l hb)
    unfold lateralLoop
    rw [hget]
    simp only [Option.some_bind]
    by_cases hw : 0 < l.weight
    · rw [if_pos hw, ih2]
      simp only [excitatorySum, inhibitorySum, List.map_cons, List.sum_cons,
        if_pos hw, Option.some.injEq, Prod.mk.injEq]
      constructor <;> ring
    · rw [if_neg hw, ih2]
      simp only [excitatorySum, inhibitorySum, List.map_cons, List.sum_cons,
        if_neg hw, Option.some.injEq, Prod.mk.injEq]
      constructor <;> ring

/-- C8. Lateral-input link validation: a link whose `target_id` is outside
the swarm makes `calculate_lateral_input` fail (the unchecked index panics
— a fatal condition surfaced to the caller, modelled as `none`), and when
every link is in range it returns exactly the pair
`(excitatorySum, inhibitorySum)`. -/
theorem lateral_input_contract (pnu : PrototypicalNeuralUnit)
    (swarm : List PrototypicalNeuralUnit) :
    ((∃ l ∈ pnu.lateral_links, swarm.length ≤ l.target_id) →
        calculate_lateral_input pnu swarm = none)
    ∧ ((∀ l ∈ pnu.lateral_links, l.target_id < swarm.length) →
        calculate_lateral_input pnu swarm
          = some (excitatorySum swarm pnu.lateral_links,
              inhibitorySum swarm pnu.lateral_links)) := by
  constructor
  · intro h
    exact lateralLoop_none swarm pnu.lateral_links h 0 0
  · intro h
    unfold calculate_lateral_input
    rw [lateralLoop_spec swarm pnu.lateral_links h 0 0]
    rw [zero_add, zero_add]

/-- Witness for C8: on a two-unit swarm with activations `2` and `-1`,
links `(0, +0.5)` and `(1, -0.25)` yield `(1, 0)`; a link to index `5`
fails. -/
theorem lateral_input_contract_witness :
    calculate_lateral_input
        ⟨9, [], ⟨0, 0⟩, 0, [⟨0, 0.5, 0⟩, ⟨1, -0.25, 0⟩]⟩
        [⟨0, [], ⟨2, 0⟩, 0, []⟩, ⟨1, [], ⟨-1, 0⟩, 0, []⟩]
      = some (1, 0)
    ∧ calculate_lateral_input ⟨9, [], ⟨0, 0⟩, 0, [⟨5, 1, 0⟩]⟩
        [⟨0, [], ⟨2, 0⟩, 0, []⟩, ⟨1, [], ⟨-1, 0⟩, 0, []⟩]
      = none := by
  constructor
  · rw [(lateral_input_contract
        ⟨9, [], ⟨0, 0⟩, 0, [⟨0, 0.5, 0⟩, ⟨1, -0.25, 0⟩]⟩
        [⟨0, [], ⟨2, 0⟩, 0, []⟩, ⟨1, [], ⟨-1, 0⟩, 0, []⟩]).2 ?_]
    · have h2 : max (2 : ℝ) 0 = 2 := max_eq_left (by norm_num)
      have hm : max (-1 : ℝ) 0 = 0 := max_eq_right (by norm_num)
      norm_num [excitatorySum, inhibitorySum, List.getD, h2, hm]
    · intro l hl
      rcases List.mem_cons.mp hl with rfl | hl2
      · show (0 : ℕ) < 2
        norm_num
      rcases List.mem_cons.mp hl2 with rfl | hl3
      · show (1 : ℕ) < 2
        norm_num
      · simp at hl3
  · exact (lateral_input_contract _ _).1
      ⟨⟨5, 1, 0⟩, List.mem_cons_self _ _, by show (2 : ℕ) ≤ 5; norm_num⟩

theorem candidateLinks_mem (swarm : List PrototypicalNeuralUnit)
    (cfg : TopologyConfig) (i : ℕ) :
    ∀ l ∈ candidateLinks swarm cfg i,
      ∃ j, j < swarm.length ∧ j ≠ i
        ∧ l.target_id = (swarm.getD j dfltPNU).id
        ∧ cfg.connection_cutoff < |l.weight| := by
  intro l hl
  unfold candidateLinks at hl
  rw [List.mem_filterMap] at hl
  obtain ⟨j, hj, hfj⟩ := hl
  rw [List.mem_range] at hj
  by_cases hji : j = i
  · rw [if_pos hji] at hfj
    cases hfj
  · rw [if_neg hji] at hfj
    by_cases hcut : cfg.connection_cutoff < |mexicanHatWeight cfg
        (semantic_distance (swarm.getD i dfltPNU) (swarm.getD j dfltPNU))|
    · rw [if_pos hcut] at hfj
      obtain rfl := Option.some.inj hfj
      exact ⟨j, hj, hji, rfl, hcut⟩
    · rw [if_neg hcut] at hfj
      cases hfj

theorem enforce_preserves_targets (u : PrototypicalNeuralUnit) :
    ∀ l ∈ (enforce_gershgorin_stability u).lateral_links,
      ∃ l0 ∈ u.lateral_links, l.target_id = l0.target_id := by
  intro l hl
  unfold enforce_gershgorin_stability at hl
  split at hl
  · rw [List.mem_map] at hl
    obtain ⟨l0, hl0, rfl⟩ := hl
    exact ⟨l0, hl0, rfl⟩
  · exact ⟨l, hl, rfl⟩

theorem enforce_links_length (u : PrototypicalNeuralUnit) :
    (enforce_gershgorin_stability u).lateral_links.length
      = u.lateral_links.length := by
  unfold enforce_gershgorin_stability
  split
  · simp
  · rfl

theorem wire_getD (swarm : List PrototypicalNeuralUnit)
    (cfg : TopologyConfig) (i : ℕ) (hi : i < swarm.length) :
    (wire_swarm_topology swarm cfg).getD i dfltPNU
      = enforce_gershgorin_stability
          { swarm.getD i dfltPNU with
              lateral_links := selectLinks swarm cfg i } := by
  unfold wire_swarm_topology
  rw [List.getD_eq_getElem?_getD, List.getElem?_map, List.getElem?_range hi]
  rfl

/-- C4 (amended). Topology sparsity: the selection stage of
`wire_swarm_topology` keeps, for each unit `i`, only candidates that
passed the cutoff, keeps at most `max_neighbors` of them, and keeps
exactly the top of the stable descending-`|weight|` order (every kept
link outweighs every dropped candidate, and kept ++ dropped is a
permutation of the candidates). The wired unit is this selection with
Gershgorin enforcement applied on top — which preserves the length bound
but can rescale weights below the cutoff (see the counterexample). -/
theorem wire_topology_sparsity (swarm : List PrototypicalNeuralUnit)
    (cfg : TopologyConfig) (i : ℕ) (hi : i < swarm.length) :
    (∀ l ∈ selectLinks swarm cfg i, cfg.connection_cutoff < |l.weight|)
    ∧ (∀ l ∈ selectLinks swarm cfg i,
        ∀ c ∈ (List.insertionSort linkGE (candidateLinks swarm cfg i)).drop
            cfg.max_neighbors, |c.weight| ≤ |l.weight|)
    ∧ List.Perm (selectLinks swarm cfg i
          ++ (List.insertionSort linkGE (candidateLinks swarm cfg i)).drop
            cfg.max_neighbors) (candidateLinks swarm cfg i)
    ∧ (wire_swarm_topology swarm cfg).getD i dfltPNU
        = enforce_gershgorin_stability
            { swarm.getD i dfltPNU with
                lateral_links := selectLinks swarm cfg i }
    ∧ ((wire_swarm_topology swarm cfg).getD i dfltPNU).lateral_links.length
        ≤ cfg.max_neighbors := by
  refine ⟨?_, ?_, ?_, wire_getD swarm cfg i hi, ?_⟩
  · intro l hl
    have hc : l ∈ candidateLinks swarm cfg i :=
      (List.mem_insertionSort linkGE).mp (List.mem_of_mem_take hl)
    obtain ⟨j, _, _, _, hcut⟩ := candidateLinks_mem swarm cfg i l hc
    exact hcut
  · intro l hl c hc
    have hsorted : List.Sorted linkGE
        (List.insertionSort linkGE (candidateLinks swarm cfg i)) :=
      List.sorted_insertionSort linkGE _
    rw [show List.insertionSort linkGE (candidateLinks swarm cfg i)
        = selectLinks swarm cfg i
          ++ (List.insertionSort linkGE (candidateLinks swarm cfg i)).drop
            cfg.max_neighbors from (List.take_append_drop _ _).symm] at hsorted
    exact (List.pairwise_append.mp hsorted).2.2 l hl c hc
  · unfold selectLinks
    rw [List.take_append_drop]
    exact List.perm_insertionSort linkGE _
  · rw [wire_getD swarm cfg i hi, enforce_links_length]
    show (selectLinks swarm cfg i).length ≤ cfg.max_neighbors
    unfold selectLinks
    rw [List.length_take]
    exact min_le_left _ _

/-- Witness for C4 at a one-unit swarm and `max_neighbors = 3`. -/
theorem wire_topology_sparsity_witness :
    ((wire_swarm_topology [⟨0, [0], ⟨0, 0⟩, 1, []⟩]
        ⟨1, 1, 1, 0, 0.1, 3⟩).getD 0 dfltPNU).lateral_links.length ≤ 3 :=
  (wire_topology_sparsity [⟨0, [0], ⟨0, 0⟩, 1, []⟩] ⟨1, 1, 1, 0, 0.1, 3⟩ 0
    (by simp)).2.2.2.2

/-- Counterexample for C4 as stated: three units with identical
prototypes (pairwise distance `0`), `amp_excitation = 0.6`,
`connection_cutoff = 0.5`, `auto_inhibition_a = 1`. All candidate weights
are `0.6 > 0.5`, but unit 0 keeps two links (influx `1.2 >= 1`), so the
post-wiring Gershgorin rescale multiplies them by `0.825`, leaving final
weights `0.495 < 0.5 = connection_cutoff`. -/
theorem wire_topology_cutoff_counterexample :
    ¬ (∀ u ∈ wire_swarm_topology
          [⟨0, [0], ⟨0, 0⟩, 1, []⟩, ⟨1, [0], ⟨0, 0⟩, 1, []⟩,
            ⟨2, [0], ⟨0, 0⟩, 1, []⟩] ⟨1, 1, 0.6, 0, 0.5, 10⟩,
        ∀ l ∈ u.lateral_links, (0.5 : ℝ) < |l.weight|) := by
  have hg0 : ([⟨0, [0], ⟨0, 0⟩, 1, []⟩, ⟨1, [0], ⟨0, 0⟩, 1, []⟩,
      ⟨2, [0], ⟨0, 0⟩, 1, []⟩] : List PrototypicalNeuralUnit).getD 0 dfltPNU
      = ⟨0, [0], ⟨0, 0⟩, 1, []⟩ := rfl
  have hg1 : ([⟨0, [0], ⟨0, 0⟩, 1, []⟩, ⟨1, [0], ⟨0, 0⟩, 1, []⟩,
      ⟨2, [0], ⟨0, 0⟩, 1, []⟩] : List PrototypicalNeuralUnit).getD 1 dfltPNU
      = ⟨1, [0], ⟨0, 0⟩, 1, []⟩ := rfl
  have hg2 : ([⟨0, [0], ⟨0, 0⟩, 1, []⟩, ⟨1, [0], ⟨0, 0⟩, 1, []⟩,
      ⟨2, [0], ⟨0, 0⟩, 1, []⟩] : List PrototypicalNeuralUnit).getD 2 dfltPNU
      = ⟨2, [0], ⟨0, 0⟩, 1, []⟩ := rfl
  have hd1 : semantic_distance (⟨0, [0], ⟨0, 0⟩, 1, []⟩ : PrototypicalNeuralUnit)
      ⟨1, [0], ⟨0, 0⟩, 1, []⟩ = 0 := by
    unfold semantic_distance
    norm_num [List.zip_cons_cons, Real.sqrt_zero]
  have hd2 : semantic_distance (⟨0, [0], ⟨0, 0⟩, 1, []⟩ : PrototypicalNeuralUnit)
      ⟨2, [0], ⟨0, 0⟩, 1, []⟩ = 0 := by
    unfold semantic_distance
    norm_num [List.zip_cons_cons, Real.sqrt_zero]
  have hw : mexicanHatWeight ⟨1, 1, 0.6, 0, 0.5, 10⟩ 0 = 0.6 := by
    unfold mexicanHatWeight
    norm_num [Real.exp_zero]
  have hc : candidateLinks
      [⟨0, [0], ⟨0, 0⟩, 1, []⟩, ⟨1, [0], ⟨0, 0⟩, 1, []⟩,
        ⟨2, [0], ⟨0, 0⟩, 1, []⟩] ⟨1, 1, 0.6, 0, 0.5, 10⟩ 0
      = [⟨1, 0.6, 0.01⟩, ⟨2, 0.6, 0.01⟩] := by
    unfold candidateLinks
    rw [show ([⟨0, [0], ⟨0, 0⟩, 1, []⟩, ⟨1, [0], ⟨0, 0⟩, 1, []⟩,
        ⟨2, [0], ⟨0, 0⟩, 1, []⟩] : List PrototypicalNeuralUnit).length = 3
        from rfl,
      (by decide : List.range 3 = [0, 1, 2])]
    simp only [List.filterMap_cons, List.filterMap_nil, hg0, hg1, hg2,
      hd1, hd2, hw]
    norm_num [abs_of_pos]
  have hsort : List.insertionSort linkGE
      [(⟨1, 0.6, 0.01⟩ : LateralLink), ⟨2, 0.6, 0.01⟩]
      = [⟨1, 0.6, 0.01⟩, ⟨2, 0.6, 0.01⟩] := by
    simp [List.insertionSort, List.orderedInsert, linkGE]
  have hsel : selectLinks
      [⟨0, [0], ⟨0, 0⟩, 1, []⟩, ⟨1, [0], ⟨0, 0⟩, 1, []⟩,
        ⟨2, [0], ⟨0, 0⟩, 1, []⟩] ⟨1, 1, 0.6, 0, 0.5, 10⟩ 0
      = [⟨1, 0.6, 0.01⟩, ⟨2, 0.6, 0.01⟩] := by
    unfold selectLinks
    rw [hc, hsort]
    rfl
  have hinflux : lateralInfluxSum
      ⟨0, [0], ⟨0, 0⟩, 1, [⟨1, 0.6, 0.01⟩, ⟨2, 0.6, 0.01⟩]⟩ = 1.2 := by
    unfold lateralInfluxSum
    norm_num [abs_of_pos]
  have hwired : (wire_swarm_topology
      [⟨0, [0], ⟨0, 0⟩, 1, []⟩, ⟨1, [0], ⟨0, 0⟩, 1, []⟩,
        ⟨2, [0], ⟨0, 0⟩, 1, []⟩] ⟨1, 1, 0.6, 0, 0.5, 10⟩).getD 0 dfltPNU
      = ⟨0, [0], ⟨0, 0⟩, 1, [⟨1, 0.495, 0.01⟩, ⟨2, 0.495, 0.01⟩]⟩ := by
    rw [wire_getD _ _ 0 (by simp), hg0, hsel]
    rw [show ({ (⟨0, [0], ⟨0, 0⟩, 1, []⟩ : PrototypicalNeuralUnit) with
        lateral_links := [⟨1, 0.6, 0.01⟩, ⟨2, 0.6, 0.01⟩] } :
        PrototypicalNeuralUnit)
        = ⟨0, [0], ⟨0, 0⟩, 1, [⟨1, 0.6, 0.01⟩, ⟨2, 0.6, 0.01⟩]⟩ from rfl]
    unfold enforce_gershgorin_stability
    rw [if_pos (show (⟨0, [0], ⟨0, 0⟩, 1,
        [⟨1, 0.6, 0.01⟩, ⟨2, 0.6, 0.01⟩]⟩ :
          PrototypicalNeuralUnit).auto_inhibition_a
        ≤ lateralInfluxSum ⟨0, [0], ⟨0, 0⟩, 1,
          [⟨1, 0.6, 0.01⟩, ⟨2, 0.6, 0.01⟩]⟩ by
      rw [hinflux]
      show (1 : ℝ) ≤ 1.2
      norm_num)]
    rw [hinflux]
    norm_num [List.map_cons, List.map_nil]
  intro hall
  have hlen : (wire_swarm_topology
      [⟨0, [0], ⟨0, 0⟩, 1, []⟩, ⟨1, [0], ⟨0, 0⟩, 1, []⟩,
        ⟨2, [0], ⟨0, 0⟩, 1, []⟩] ⟨1, 1, 0.6, 0, 0.5, 10⟩).length = 3 := by
    unfold wire_swarm_topology
    simp
  have hmem : (wire_swarm_topology
      [⟨0, [0], ⟨0, 0⟩, 1, []⟩, ⟨1, [0], ⟨0, 0⟩, 1, []⟩,
        ⟨2, [0], ⟨0, 0⟩, 1, []⟩] ⟨1, 1, 0.6, 0, 0.5, 10⟩).getD 0 dfltPNU
      ∈ wire_swarm_topology
        [⟨0, [0], ⟨0, 0⟩, 1, []⟩, ⟨1, [0], ⟨0, 0⟩, 1, []⟩,
          ⟨2, [0], ⟨0, 0⟩, 1, []⟩] ⟨1, 1, 0.6, 0, 0.5, 10⟩ := by
    rw [List.getD_eq_getElem?_getD,
      List.getElem?_eq_getElem (by rw [hlen]; norm_num)]
    exact List.getElem_mem _
  have h := hall _ hmem ⟨1, 0.495, 0.01⟩
    (by rw [hwired]; exact List.mem_cons_self _ _)
  norm_num [abs_of_pos] at h

/-- C10 (amended). `wire_swarm_topology` stores each retained link's
`target_id` as the *target unit's `id` field* (`swarm[j].id`), never the
array index `j` itself; consequently, *if* every unit's `id` equals its
position in the swarm array, then every produced `target_id` is a valid
index and no unit links to itself. (The converse direction of the
claimed equivalence is false — see the counterexample.) -/
theorem wire_target_ids (swarm : List PrototypicalNeuralUnit)
    (cfg : TopologyConfig) (i : ℕ) (hi : i < swarm.length) :
    (∀ l ∈ ((wire_swarm_topology swarm cfg).getD i dfltPNU).lateral_links,
      ∃ j, j < swarm.length ∧ j ≠ i
        ∧ l.target_id = (swarm.getD j dfltPNU).id)
    ∧ ((∀ k, k < swarm.length → (swarm.getD k dfltPNU).id = k) →
        ∀ l ∈ ((wire_swarm_topology swarm cfg).getD i dfltPNU).lateral_links,
          l.target_id < swarm.length ∧ l.target_id ≠ i) := by
  have hmain : ∀ l ∈ ((wire_swarm_topology swarm cfg).getD i
      dfltPNU).lateral_links,
      ∃ j, j < swarm.length ∧ j ≠ i
        ∧ l.target_id = (swarm.getD j dfltPNU).id := by
    intro l hl
    rw [wire_getD swarm cfg i hi] at hl
    obtain ⟨l0, hl0, htid⟩ := enforce_preserves_targets _ l hl
    have hc : l0 ∈ candidateLinks swarm cfg i :=
      (List.mem_insertionSort linkGE).mp (List.mem_of_mem_take hl0)
    obtain ⟨j, hj, hji, hid, _⟩ := candidateLinks_mem swarm cfg i l0 hc
    exact ⟨j, hj, hji, htid.trans hid⟩
  refine ⟨hmain, fun hids l hl => ?_⟩
  obtain ⟨j, hj, hji, hid⟩ := hmain l hl
  rw [hid, hids j hj]
  exact ⟨hj, hji⟩

/-- Fully wired form of a two-unit swarm with identical prototypes `[0]`,
ids `ida`/`idb`, `auto_inhibition_a = 2` (no rescaling: influx `1 < 2`),
`amp_excitation = 1`, cutoff `0.1`: each unit links to the other unit's
`id` field with weight `1`. -/
theorem wire_two_units (ida idb : ℕ) :
    wire_swarm_topology
        [⟨ida, [0], ⟨0, 0⟩, 2, []⟩, ⟨idb, [0], ⟨0, 0⟩, 2, []⟩]
        ⟨1, 1, 1, 0, 0.1, 10⟩
      = [⟨ida, [0], ⟨0, 0⟩, 2, [⟨idb, 1, 0.01⟩]⟩,
          ⟨idb, [0], ⟨0, 0⟩, 2, [⟨ida, 1, 0.01⟩]⟩] := by
  have hg0 : ([⟨ida, [0], ⟨0, 0⟩, 2, []⟩, ⟨idb, [0], ⟨0, 0⟩, 2, []⟩] :
      List PrototypicalNeuralUnit).getD 0 dfltPNU
      = ⟨ida, [0], ⟨0, 0⟩, 2, []⟩ := rfl
  have hg1 : ([⟨ida, [0], ⟨0, 0⟩, 2, []⟩, ⟨idb, [0], ⟨0, 0⟩, 2, []⟩] :
      List PrototypicalNeuralUnit).getD 1 dfltPNU
      = ⟨idb, [0], ⟨0, 0⟩, 2, []⟩ := rfl
  have hd01 : semantic_distance
      (⟨ida, [0], ⟨0, 0⟩, 2, []⟩ : PrototypicalNeuralUnit)
      ⟨idb, [0], ⟨0, 0⟩, 2, []⟩ = 0 := by
    unfold semantic_distance
    norm_num [List.zip_cons_cons, Real.sqrt_zero]
  have hd10 : semantic_distance
      (⟨idb, [0], ⟨0, 0⟩, 2, []⟩ : PrototypicalNeuralUnit)
      ⟨ida, [0], ⟨0, 0⟩, 2, []⟩ = 0 := by
    unfold semantic_distance
    norm_num [List.zip_cons_cons, Real.sqrt_zero]
  have hw : mexicanHatWeight ⟨1, 1, 1, 0, 0.1, 10⟩ 0 = 1 := by
    unfold mexicanHatWeight
    norm_num [Real.exp_zero]
  have hc0 : candidateLinks
      [⟨ida, [0], ⟨0, 0⟩, 2, []⟩, ⟨idb, [0], ⟨0, 0⟩, 2, []⟩]
      ⟨1, 1, 1, 0, 0.1, 10⟩ 0 = [⟨idb, 1, 0.01⟩] := by
    unfold candidateLinks
    rw [show ([⟨ida, [0], ⟨0, 0⟩, 2, []⟩, ⟨idb, [0], ⟨0, 0⟩, 2, []⟩] :
        List PrototypicalNeuralUnit).length = 2 from rfl,
      (by decide : List.range 2 = [0, 1])]
    simp only [List.filterMap_cons, List.filterMap_nil, hg0, hg1, hd01, hw]
    norm_num
  have hc1 : candidateLinks
      [⟨ida, [0], ⟨0, 0⟩, 2, []⟩, ⟨idb, [0], ⟨0, 0⟩, 2, []⟩]
      ⟨1, 1, 1, 0, 0.1, 10⟩ 1 = [⟨ida, 1, 0.01⟩] := by
    unfold candidateLinks
    rw [show ([⟨ida, [0], ⟨0, 0⟩, 2, []⟩, ⟨idb, [0], ⟨0, 0⟩, 2, []⟩] :
        List PrototypicalNeuralUnit).length = 2 from rfl,
      (by decide : List.range 2 = [0, 1])]
    simp only [List.filterMap_cons, List.filterMap_nil, hg0, hg1, hd10, hw]
    norm_num
  have hsel0 : selectLinks
      [⟨ida, [0], ⟨0, 0⟩, 2, []⟩, ⟨idb, [0], ⟨0, 0⟩, 2, []⟩]
      ⟨1, 1, 1, 0, 0.1, 10⟩ 0 = [⟨idb, 1, 0.01⟩] := by
    unfold selectLinks
    rw [hc0]
    rfl
  have hsel1 : selectLinks
      [⟨ida, [0], ⟨0, 0⟩, 2, []⟩, ⟨idb, [0], ⟨0, 0⟩, 2, []⟩]
      ⟨1, 1, 1, 0, 0.1, 10⟩ 1 = [⟨ida, 1, 0.01⟩] := by
    unfold selectLinks
    rw [hc1]
    rfl
  have henf : ∀ u : PrototypicalNeuralUnit,
      lateralInfluxSum u = 1 → u.auto_inhibition_a = 2 →
      enforce_gershgorin_stability u = u := by
    intro u h1 h2
    unfold enforce_gershgorin_stability
    rw [if_neg]
    rw [h1, h2]
    norm_num
  unfold wire_swarm_topology
  rw [show ([⟨ida, [0], ⟨0, 0⟩, 2, []⟩, ⟨idb, [0], ⟨0, 0⟩, 2, []⟩] :
      List PrototypicalNeuralUnit).length = 2 from rfl,
    (by decide : List.range 2 = [0, 1])]
  rw [List.map_cons, List.map_cons, List.map_nil]
  rw [hg0, hg1, hsel0, hsel1]
  rw [show ({ (⟨ida, [0], ⟨0, 0⟩, 2, []⟩ : PrototypicalNeuralUnit) with
      lateral_links := [⟨idb, 1, 0.01⟩] } : PrototypicalNeuralUnit)
      = ⟨ida, [0], ⟨0, 0⟩, 2, [⟨idb, 1, 0.01⟩]⟩ from rfl]
  rw [show ({ (⟨idb, [0], ⟨0, 0⟩, 2, []⟩ : PrototypicalNeuralUnit) with
      lateral_links := [⟨ida, 1, 0.01⟩] } : PrototypicalNeuralUnit)
      = ⟨idb, [0], ⟨0, 0⟩, 2, [⟨ida, 1, 0.01⟩]⟩ from rfl]
  rw [henf _ (by unfold lateralInfluxSum; norm_num) rfl,
    henf _ (by unfold lateralInfluxSum; norm_num) rfl]

/-- Witness for C10 on the two-unit swarm whose ids equal their
positions: unit 0's produced link (target `1`) is a valid index and not
a self-link. -/
theorem wire_target_ids_witness :
    (⟨1, 1, 0.01⟩ : LateralLink).target_id < 2
    ∧ (⟨1, 1, 0.01⟩ : LateralLink).target_id ≠ 0 := by
  refine (wire_target_ids
      [⟨0, [0], ⟨0, 0⟩, 2, []⟩, ⟨1, [0], ⟨0, 0⟩, 2, []⟩]
      ⟨1, 1, 1, 0, 0.1, 10⟩ 0 (by simp)).2 ?_ ⟨1, 1, 0.01⟩ ?_
  · intro k hk
    have hk2 : k < 2 := hk
    interval_cases k <;> rfl
  · rw [List.getD_eq_getElem?_getD, wire_two_units 0 1]
    exact List.mem_cons_self _ _

/-- Counterexample for C10's claimed equivalence: with the two units'
`id` fields swapped (`[1, 0]`), every produced `target_id` is still a
valid index into the swarm, yet no unit's `id` equals its position —
so validity does not imply `id = position`. (Unit 0 in fact receives
`target_id = 0`, a self-link by index.) -/
theorem wire_target_ids_counterexample :
    (∀ u ∈ wire_swarm_topology
        [⟨1, [0], ⟨0, 0⟩, 2, []⟩, ⟨0, [0], ⟨0, 0⟩, 2, []⟩]
        ⟨1, 1, 1, 0, 0.1, 10⟩,
      ∀ l ∈ u.lateral_links, l.target_id < 2)
    ∧ ¬ (∀ k, k < 2 →
        (([⟨1, [0], ⟨0, 0⟩, 2, []⟩, ⟨0, [0], ⟨0, 0⟩, 2, []⟩] :
            List PrototypicalNeuralUnit).getD k dfltPNU).id = k) := by
  constructor
  · rw [wire_two_units 1 0]
    intro u hu l hl
    rcases List.mem_cons.mp hu with rfl | hu2
    · rcases List.mem_cons.mp hl with rfl | hl2
      · norm_num
      · simp at hl2
    rcases List.mem_cons.mp hu2 with rfl | hu3
    · rcases List.mem_cons.mp hl with rfl | hl2
      · norm_num
      · simp at hl2
    · simp at hu3
  · intro hids
    have h0 := hids 0 (by norm_num)
    simp at h0

/-- C6. Segmenter boundary: the stream with reference values
`[1,2,3,2,1]` and timestamps `[0,1,2,3,4]` splits into exactly two
segments at the peak (index 2), each of length 3, sharing the pivot
sample at index 2; any input with fewer than 2 samples yields zero
segments. -/
theorem segLoop_cons_step (raw : List (List ℝ)) (times : List ℝ)
    (i : ℕ) (rest : List ℕ) (s : ℕ) (sign : ℝ) (acc : List Seg)
    (xi xim : ℝ) (hxi : refVal raw i = some xi)
    (hxim : refVal raw (i - 1) = some xim) :
    segLoop raw times (i :: rest) s sign acc
      = if |xi - xim| < 1e-6 then
          segLoop raw times rest s sign acc
        else
          if rustSignum (xi - xim)
              ≠ (if sign = 0 then rustSignum (xi - xim) else sign) then
            (emitSegment raw times s i acc).bind fun acc1 =>
              segLoop raw times rest (i - 1) (rustSignum (xi - xim)) acc1
          else
            segLoop raw times rest s
              (if sign = 0 then rustSignum (xi - xim) else sign) acc := by
  simp only [segLoop]
  rw [hxi, hxim]
  simp only [Option.some_bind]

theorem segmenter_boundary :
    segment_and_process [[1], [2], [3], [2], [1]] [0, 1, 2, 3, 4]
      = some [([[1], [2], [3]], [0, 1, 2]), ([[3], [2], [1]], [2, 3, 4])]
    ∧ (∀ (raw : List (List ℝ)) (times : List ℝ), raw.length < 2 →
        segment_and_process raw times = some []) := by
  constructor
  · unfold segment_and_process
    rw [if_neg (by norm_num)]
    have h4 : ([[1], [2], [3], [2], [1]] : List (List ℝ)).length - 1 = 4 := by
      simp
    rw [h4, (by decide : List.range' 1 4 = [1, 2, 3, 4])]
    have ht1 : List.take 3 ([[1], [2], [3], [2], [1]] : List (List ℝ))
        = [[1], [2], [3]] := rfl
    have ht2 : List.take 3 ([0, 1, 2, 3, 4] : List ℝ) = [0, 1, 2] := rfl
    have hd1 : List.drop 2 ([[1], [2], [3], [2], [1]] : List (List ℝ))
        = [[3], [2], [1]] := rfl
    have hd2 : List.drop 2 ([0, 1, 2, 3, 4] : List ℝ) = [2, 3, 4] := rfl
    rw [segLoop_cons_step [[1], [2], [3], [2], [1]] [0, 1, 2, 3, 4]
      1 [2, 3, 4] 0 0 [] 2 1 rfl rfl]
    norm_num [rustSignum]
    rw [segLoop_cons_step [[1], [2], [3], [2], [1]] [0, 1, 2, 3, 4]
      2 [3, 4] 0 1 [] 3 2 rfl rfl]
    norm_num [rustSignum]
    rw [segLoop_cons_step [[1], [2], [3], [2], [1]] [0, 1, 2, 3, 4]
      3 [4] 0 1 [] 2 3 rfl rfl]
    norm_num [rustSignum, abs_neg, abs_one]
    rw [show emitSegment [[1], [2], [3], [2], [1]] [0, 1, 2, 3, 4] 0 3 []
        = some [([[1], [2], [3]], [0, 1, 2])] from by
      unfold emitSegment
      norm_num [ht1, ht2]]
    rw [Option.some_bind]
    rw [segLoop_cons_step [[1], [2], [3], [2], [1]] [0, 1, 2, 3, 4]
      4 [] 2 (-1) [([[1], [2], [3]], [0, 1, 2])] 1 2 rfl rfl]
    norm_num [rustSignum, abs_neg, abs_one]
    simp only [segLoop, Option.some_bind]
    unfold flushTail
    norm_num [hd1, hd2]
  · intro raw times h
    unfold segment_and_process
    rw [if_pos h]

/-- Fidelity of the panic model: an equal-length call whose third sample
row is empty fails (`raw[2][0]` panics in the source), so equal lengths
alone do not guarantee success. -/
theorem segment_empty_row_fails :
    segment_and_process [[1], [2], []] [0, 1, 2] = none := by
  unfold segment_and_process
  rw [if_neg (by norm_num)]
  have h2 : ([[1], [2], []] : List (List ℝ)).length - 1 = 2 := by simp
  rw [h2, (by decide : List.range' 1 2 = [1, 2])]
  have hv0 : refVal [[1], [2], []] 0 = some 1 := rfl
  have hv1 : refVal [[1], [2], []] 1 = some 2 := rfl
  have hv2 : refVal [[1], [2], []] 2 = none := rfl
  simp only [segLoop]
  norm_num [hv0, hv1, hv2, rustSignum, Option.some_bind]

/-- Witness for C6, applying the boundary theorem's short-input clause at
a length-1 stream. -/
theorem segmenter_boundary_witness :
    segment_and_process [[9]] [] = some [] :=
  segmenter_boundary.2 [[9]] [] (by simp)

/-- Witness for C9, applying the bound theorem to the zero vector (zero
magnitude, so the directional resonance is exactly `0`) at `sigma = 1`. -/
theorem resonance_bounds_witness :
    UniversalVector.zero.resonance_directional UniversalVector.zero = 0
    ∧ 0 < UniversalVector.zero.resonance_structural UniversalVector.zero 1 := by
  have hz : Signature.zero.magnitude = 0 := by
    have : Signature.dot Signature.zero Signature.zero = 0 := by
      simp [Signature.dot, Signature.zero]
    simp [Signature.magnitude, this]
  have h := resonance_bounds UniversalVector.zero UniversalVector.zero
  exact ⟨h.2.1 (Or.inl hz), (h.2.2 1).1⟩

end AnimaSigma
